import Mathlib

/-!
Shallow embedding of the stateless video-streaming backend
(services/tokenService.js, services/chunkService.js, services/storageService.js,
utils/timeUtils.js, scripts/segmentVideo.js, controllers/uploadController.js),
with theorems checking the natural-language specification against the code.
-/

namespace VideoStreaming

/-! ## Time utilities (src/utils/timeUtils.js)

`timestampToChunkIndex(timestamp, chunkDuration)` is `Math.floor(timestamp / chunkDuration)`;
timestamps may be fractional (`parseFloat`), so they are modelled as rationals.
`chunkIndexToTimestamp(index, chunkDuration)` is `index * chunkDuration`. -/

def timestampToChunkIndex (timestamp : ℚ) (chunkDuration : ℕ) : ℤ :=
  ⌊timestamp / (chunkDuration : ℚ)⌋

def chunkIndexToTimestamp (index chunkDuration : ℕ) : ℕ :=
  index * chunkDuration

/-! ## Token service (src/services/tokenService.js)

`createSignature` is an HMAC-SHA256 over the shared secret (external crypto
collaborator); it is modelled as an arbitrary deterministic function
`hmac : String → String`.  The clock `Math.floor(Date.now() / 1000)` is passed
explicitly as `now : ℕ` (unix seconds). -/

/-- The signing payload built in both `generateSignedUrl` and `verifySignedUrl`:
the template string `${videoId}:${quality}:${chunkIndex}:${expires}`. -/
def signData (videoId quality : String) (chunkIndex expires : ℕ) : String :=
  videoId ++ ":" ++ quality ++ ":" ++ toString chunkIndex ++ ":" ++ toString expires

structure SignedUrl where
  signature : String
  expires : ℕ
deriving DecidableEq

/-- `generateSignedUrl(videoId, quality, chunkIndex, expiresIn)`:
`expires = now + expiresIn`, `signature = hmac(signData)`. -/
def generateSignedUrl (hmac : String → String) (now : ℕ) (videoId quality : String)
    (chunkIndex expiresIn : ℕ) : SignedUrl :=
  let expires := now + expiresIn
  ⟨hmac (signData videoId quality chunkIndex expires), expires⟩

inductive VerifyResult where
  | valid : VerifyResult
  | invalid (reason : String) : VerifyResult
deriving DecidableEq

/-- `verifySignedUrl(videoId, quality, chunkIndex, expires, signature)`:
the expiry check (`now > expires`) comes first, then the signature comparison. -/
def verifySignedUrl (hmac : String → String) (now : ℕ) (videoId quality : String)
    (chunkIndex expires : ℕ) (signature : String) : VerifyResult :=
  if expires < now then
    .invalid "URL expired"
  else
    let expectedSignature := hmac (signData videoId quality chunkIndex expires)
    if signature ≠ expectedSignature then
      .invalid "Invalid signature"
    else
      .valid

/-- Replace the character at position `i` of `s` by `c` (models flipping one
byte of the hex signature string). -/
def alterByte (s : String) (i : ℕ) (c : Char) : String :=
  ⟨s.data.set i c⟩

/-! ## Byte-range parsing (src/services/chunkService.js, `parseRange`)

`parseRange(rangeHeader, fileSize)` matches the header against the regex
`/bytes=(\d*)-(\d*)/` (searching from every position, `\d*` maximal), defaults
a missing start to `0` and a missing end to `fileSize - 1`, and returns `null`
when the header is absent/falsy, the regex fails, or the bounds are invalid. -/

/-- `parseInt` on a digit string. -/
def digitsToNat (ds : List Char) : ℕ :=
  ds.foldl (fun acc c => acc * 10 + (c.toNat - '0'.toNat)) 0

/-- Try to match `bytes=(\d*)-(\d*)` at the head of `l`, returning the two
digit groups. -/
def matchBytesAt (l : List Char) : Option (List Char × List Char) :=
  if l.take 6 = "bytes=".data then
    let rest := l.drop 6
    let d1 := rest.takeWhile Char.isDigit
    match rest.dropWhile Char.isDigit with
    | '-' :: rest2 => some (d1, rest2.takeWhile Char.isDigit)
    | _ => none
  else none

/-- Scan for the first position where the regex matches (JS `String.match`
semantics for an unanchored pattern). -/
def findBytesMatch : List Char → Option (List Char × List Char)
  | [] => none
  | c :: cs =>
    match matchBytesAt (c :: cs) with
    | some r => some r
    | none => findBytesMatch cs

structure ByteRange where
  start : ℕ
  «end» : ℕ
  length : ℕ
deriving DecidableEq

/-- `parseRange(rangeHeader, fileSize)`.  `none` for the header models JS
`undefined`; the empty string is falsy in JS, hence also rejected up front. -/
def parseRange (rangeHeader : Option String) (fileSize : ℕ) : Option ByteRange :=
  match rangeHeader with
  | none => none
  | some s =>
    if s = "" then none
    else
      match findBytesMatch s.data with
      | none => none
      | some (d1, d2) =>
        let start := if d1.isEmpty then 0 else digitsToNat d1
        let «end» := if d2.isEmpty then fileSize - 1 else digitsToNat d2
        if fileSize ≤ start ∨ fileSize ≤ «end» ∨ «end» < start then none
        else some ⟨start, «end», «end» - start + 1⟩

/-! ## Chunk service (src/services/chunkService.js)

The storage service's filesystem-dependent queries (`videoExists`,
`getMetadata`, `getAvailableQualities`, `chunkExists`, `getChunkStats`) are a
snapshot environment; `getAvailableQualities` lists the `chunks/` quality
directories, independently of the metadata record. -/

structure VideoMetadata where
  duration : ℚ
  chunkDuration : ℕ
  totalChunks : ℕ
deriving DecidableEq

structure StorageEnv where
  videoExists : String → Bool
  metadataOf : String → VideoMetadata
  availableQualities : String → List String
  chunkExists : String → String → ℤ → Bool
  chunkSize : String → String → ℤ → ℕ

inductive ChunkError where
  | videoNotFound : ChunkError
  | chunkNotFound (requestedIndex : ℤ) (totalChunks : ℕ) : ChunkError
  | qualityUnavailable (requested : String) (available : List String) : ChunkError
  | chunkFileNotFound : ChunkError
deriving DecidableEq

structure ChunkDescriptor where
  videoId : String
  quality : String
  chunkIndex : ℤ
  size : ℕ
deriving DecidableEq

/-- `getChunkByIndex(videoId, quality, chunkIndex)`: existence check, index
bounds check, quality resolution (requested tier if available, else the
configured default tier, else `Quality not available`), chunk-file check,
then the descriptor. -/
def getChunkByIndex (env : StorageEnv) (defaultQuality : String)
    (videoId quality : String) (chunkIndex : ℤ) : Except ChunkError ChunkDescriptor :=
  if env.videoExists videoId = false then
    .error .videoNotFound
  else
    let metadata := env.metadataOf videoId
    if chunkIndex < 0 ∨ (metadata.totalChunks : ℤ) ≤ chunkIndex then
      .error (.chunkNotFound chunkIndex metadata.totalChunks)
    else
      let availableQualities := env.availableQualities videoId
      let selectedQuality :=
        if availableQualities.contains quality then quality else defaultQuality
      if availableQualities.contains selectedQuality = false then
        .error (.qualityUnavailable quality availableQualities)
      else if env.chunkExists videoId selectedQuality chunkIndex = false then
        .error .chunkFileNotFound
      else
        .ok ⟨videoId, selectedQuality, chunkIndex,
          env.chunkSize videoId selectedQuality chunkIndex⟩

/-- `getChunkByTimestamp(videoId, quality, timestamp)`: reads the asset's own
`metadata.chunkDuration`, converts, and delegates to `getChunkByIndex`. -/
def getChunkByTimestamp (env : StorageEnv) (defaultQuality : String)
    (videoId quality : String) (timestamp : ℚ) : Except ChunkError ChunkDescriptor :=
  let metadata := env.metadataOf videoId
  let chunkIndex := timestampToChunkIndex timestamp metadata.chunkDuration
  getChunkByIndex env defaultQuality videoId quality chunkIndex

structure ChunkSummary where
  index : ℕ
  size : ℕ
  timestamp : ℕ
deriving DecidableEq

/-- The `for` loop of `getChunkRange`: runs `i` from its current value while
`i < count` (the `fuel` argument counts the remaining iterations) and
`startIndex + i < totalChunks`, appending a summary when `getChunkByIndex`
succeeds and skipping the index when it throws (`try`/`catch`). -/
def getChunkRangeLoop (env : StorageEnv) (defaultQuality videoId quality : String)
    (metadata : VideoMetadata) (startIndex : ℕ) : ℕ → ℕ → List ChunkSummary
  | _, 0 => []
  | i, fuel + 1 =>
    if startIndex + i < metadata.totalChunks then
      (match getChunkByIndex env defaultQuality videoId quality (startIndex + i) with
       | .ok chunk =>
         [⟨startIndex + i, chunk.size,
           chunkIndexToTimestamp (startIndex + i) metadata.chunkDuration⟩]
       | .error _ => []) ++
      getChunkRangeLoop env defaultQuality videoId quality metadata startIndex (i + 1) fuel
    else []

/-- `getChunkRange(videoId, quality, startIndex, count)`. -/
def getChunkRange (env : StorageEnv) (defaultQuality videoId quality : String)
    (startIndex count : ℕ) : List ChunkSummary :=
  getChunkRangeLoop env defaultQuality videoId quality (env.metadataOf videoId)
    startIndex 0 count

/-! ## Transcode metadata computation (src/scripts/segmentVideo.js)

Only the pure metadata computation is embedded: `totalChunks`, the quality
filter against the source height, and the force-include of `360p`. -/

structure QualitySettings where
  resolution : String
  videoBitrate : String
  audioBitrate : String
deriving DecidableEq

/-- The `QUALITIES` table of scripts/segmentVideo.js. -/
def QUALITIES : List (String × QualitySettings) :=
  [("1080p", ⟨"1920x1080", "5000k", "192k"⟩),
   ("720p", ⟨"1280x720", "2500k", "128k"⟩),
   ("480p", ⟨"854x480", "1000k", "96k"⟩),
   ("360p", ⟨"640x360", "500k", "64k"⟩)]

/-- `parseInt(QUALITIES[q].resolution.split('x')[1], 10)`: the digits after
the first `'x'` of the `WxH` resolution string. -/
def targetHeight (resolution : String) : ℕ :=
  digitsToNat (((resolution.data.dropWhile (fun c => c != 'x')).drop 1).takeWhile
    (fun c => c != 'x'))

/-- Resolution string of a tier name in the `QUALITIES` table. -/
def resolutionOf (q : String) : String :=
  ((QUALITIES.lookup q).getD ⟨"", "", ""⟩).resolution

/-- The quality-selection filter of `segmentVideo`: keep requested tiers whose
target height does not exceed the source height; if none survive, push
`'360p'`. -/
def qualitiesToGenerate (qualities : List String) (sourceHeight : ℕ) : List String :=
  let filtered := qualities.filter (fun q => targetHeight (resolutionOf q) ≤ sourceHeight)
  if filtered.isEmpty then ["360p"] else filtered

structure SegmentMetadataView where
  duration : ℚ
  chunkDuration : ℕ
  totalChunks : ℤ
  qualities : List String
deriving DecidableEq

/-- The metadata record written at the end of `segmentVideo`:
`totalChunks = Math.ceil(duration / CHUNK_DURATION)`, `sourceHeight =
videoInfo.height || 720`, `qualities = qualitiesToGenerate`. -/
def segmentVideoMetadata (duration : ℚ) (height : ℕ) (qualities : List String)
    (chunkDuration : ℕ) : SegmentMetadataView :=
  let totalChunks : ℤ := ⌈duration / (chunkDuration : ℚ)⌉
  let sourceHeight := if height = 0 then 720 else height
  ⟨duration, chunkDuration, totalChunks, qualitiesToGenerate qualities sourceHeight⟩

/-! ## Job lifecycle traces (src/controllers/uploadController.js)

`updateJobStatus(jobId, updates)` merges `updates` into the current record.
For the lifecycle claims only `status` and `progress` matter; the other merged
fields (stage, timestamps, error, result) do not interact with them.
A `JobUpdate` records which of the two fields a call to `updateJobStatus`
sets (`none` = field absent from the merge, previous value kept). -/

inductive JobStatus where
  | initializing : JobStatus
  | downloading : JobStatus
  | processing : JobStatus
  | completed : JobStatus
  | failed : JobStatus
deriving DecidableEq

structure JobUpdate where
  status : Option JobStatus
  progress : Option ℕ
deriving DecidableEq

structure JobRecord where
  status : JobStatus
  progress : ℕ
deriving DecidableEq

/-- The merge `{...current, ...updates}` restricted to the two tracked fields. -/
def applyUpdate (j : JobRecord) (u : JobUpdate) : JobRecord :=
  ⟨u.status.getD j.status, u.progress.getD j.progress⟩

/-- Job-record states reached from `j` under a list of merge updates
(`j` itself first). -/
def jobStatesFrom (j : JobRecord) : List JobUpdate → List JobRecord
  | [] => [j]
  | u :: us => j :: jobStatesFrom (applyUpdate j u) us

/-- Outcome of one awaited pipeline stage: the progress values its callbacks
reported, and whether it resolved or threw. -/
inductive StageResult where
  | ok (events : List ℕ) : StageResult
  | fail (events : List ℕ) : StageResult
deriving DecidableEq

def StageResult.events : StageResult → List ℕ
  | .ok evs => evs
  | .fail evs => evs

/-- A download-progress callback: `{status: 'downloading', progress}`. -/
def downloadingUpdate (p : ℕ) : JobUpdate := ⟨some .downloading, some p⟩

/-- An encode-progress callback: `{status: 'processing', progress: overallProgress}`. -/
def processingUpdate (p : ℕ) : JobUpdate := ⟨some .processing, some p⟩

/-- The `catch` branch: `{status: 'failed', error, failedAt}` (no progress field). -/
def failedUpdate : JobUpdate := ⟨some .failed, none⟩

/-- The sequence of `updateJobStatus` calls performed by `processVideoAsync`
(remote-URL ingestion), as a function of how the downloaded and encode stages
turn out and whether the final `updateMetadata` succeeds:
1. `{status: 'downloading', progress: 0}`;
2. the title/sourceInfo merge after `getVideoInfo` (no status/progress);
3. the download progress callbacks; on a download failure, the `catch` update;
4. `{status: 'processing', progress: 0}`;
5. the encode progress callbacks; on an encode or metadata-update failure, the
   `catch` update; otherwise `{status: 'completed', progress: 100, ...}`. -/
def processVideoAsyncUpdates (download encode : StageResult) (metaOk : Bool) :
    List JobUpdate :=
  ⟨some .downloading, some 0⟩ ::
  ⟨none, none⟩ ::
  match download with
  | .fail evs => evs.map downloadingUpdate ++ [failedUpdate]
  | .ok evs =>
    evs.map downloadingUpdate ++
    ⟨some .processing, some 0⟩ ::
    match encode with
    | .fail evs2 => evs2.map processingUpdate ++ [failedUpdate]
    | .ok evs2 =>
      evs2.map processingUpdate ++
      (if metaOk then [⟨some .completed, some 100⟩] else [failedUpdate])

/-- Job states of a remote-URL ingestion run, from the initial record
`{status: 'initializing', progress: 0}` written by `processFromUrl`. -/
def processVideoAsyncStates (download encode : StageResult) (metaOk : Bool) :
    List JobRecord :=
  jobStatesFrom ⟨.initializing, 0⟩ (processVideoAsyncUpdates download encode metaOk)

/-- The sequence of `updateJobStatus` calls performed by `processUploadAsync`
(direct upload): encode progress callbacks, then completed or failed. -/
def processUploadAsyncUpdates (encode : StageResult) : List JobUpdate :=
  match encode with
  | .fail evs => evs.map processingUpdate ++ [failedUpdate]
  | .ok evs => evs.map processingUpdate ++ [⟨some .completed, some 100⟩]

/-- Job states of a direct-upload run, from the initial record
`{status: 'processing', progress: 0}` written by `uploadVideo`. -/
def processUploadAsyncStates (encode : StageResult) : List JobRecord :=
  jobStatesFrom ⟨.processing, 0⟩ (processUploadAsyncUpdates encode)

def JobRecord.isTerminal (j : JobRecord) : Bool :=
  j.status = JobStatus.completed ∨ j.status = JobStatus.failed

/-- Forward order on statuses: initializing → downloading → processing →
terminal. -/
def JobStatus.rank : JobStatus → ℕ
  | .initializing => 0
  | .downloading => 1
  | .processing => 2
  | .completed => 3
  | .failed => 3

/-! ## Temporary-file cleanup (src/controllers/uploadController.js §cleanup)

The filesystem is reduced to one bit: whether the job's temporary input file
exists.  `downloadService.downloadDirect` creates the file and unlinks it on
any failure before rethrowing; `downloadService.cleanup` / `fs.unlink` remove
it, ignoring a missing file. -/

/-- `downloadService.cleanup(filePath)` / `fs.unlink(...).catch(() => {})`. -/
def cleanupTempFile (_tempExists : Bool) : Bool := false

/-- `downloadFromUrl` → `downloadDirect`: creates the temp file, and on any
failure (bad content type, timeout, transport or write error) unlinks the
partial file before the error propagates.  Returns (temp file exists, resolved?). -/
def downloadFromUrlFs (dlOk : Bool) (_tempExists : Bool) : Bool × Bool :=
  if dlOk then (true, true) else (cleanupTempFile true, false)

/-- Final temp-file state of `processVideoAsync`: `tempFilePath` starts null,
is assigned only after the download resolves, and the `finally` block runs
`cleanup(tempFilePath)` whenever it is non-null — also when `segmentVideo`
(`segOk = false`) or `updateMetadata` (`metaOk = false`) throws. -/
def processVideoAsyncFinalTemp (dlOk _segOk _metaOk : Bool) : Bool :=
  let tempFilePath : Option Unit := none
  let (fs1, dlResolved) := downloadFromUrlFs dlOk false
  if dlResolved then
    let tempFilePath : Option Unit := some ()
    -- segmentVideo / updateMetadata neither create nor remove the temp file,
    -- whether they resolve or throw; control reaches `finally` either way.
    match tempFilePath with
    | none => fs1
    | some _ => cleanupTempFile fs1
  else
    -- catch marks the job failed; `finally` sees tempFilePath still null.
    match tempFilePath with
    | none => fs1
    | some _ => cleanupTempFile fs1

/-- Final temp-file state of `processUploadAsync`: the uploaded file exists at
entry and `finally` always unlinks it, whether `segmentVideo` resolves or
throws. -/
def processUploadAsyncFinalTemp (_segOk : Bool) : Bool :=
  let fs0 := true
  cleanupTempFile fs0

/-! ## Metadata store with in-memory cache (src/services/storageService.js and
scripts/segmentVideo.js `updateMetadata`)

A metadata record is a JSON object, modelled as a key/value association list.
`getMetadata` consults `this.metadataCache` first and populates it on a miss;
`updateMetadata` (scripts/segmentVideo.js) does a read-merge-write directly on
the file and never touches the cache. -/

abbrev Json := List (String × String)

/-- The spread merge `{...existing, ...updates}`: keys of `updates` override. -/
def mergeJson (existing updates : Json) : Json :=
  (existing.filter (fun kv => (updates.lookup kv.1).isNone)) ++ updates

structure StorageState where
  disk : String → Option Json
  cache : String → Option Json

/-- `getMetadata(videoId)`: cache hit returns the cached record unchanged;
a miss reads `metadata.json` and caches it; a missing file throws (`none`). -/
def getMetadata (st : StorageState) (videoId : String) : Option Json × StorageState :=
  match st.cache videoId with
  | some m => (some m, st)
  | none =>
    match st.disk videoId with
    | some m =>
      (some m, ⟨st.disk, fun v => if v = videoId then some m else st.cache v⟩)
    | none => (none, st)

/-- `clearCache(videoId)` of the storage service (never called by
`updateMetadata`). -/
def clearCache (st : StorageState) (videoId : Option String) : StorageState :=
  match videoId with
  | some v => ⟨st.disk, fun w => if w = v then none else st.cache w⟩
  | none => ⟨st.disk, fun _ => none⟩

/-- `updateMetadata(videoId, updates)` of scripts/segmentVideo.js: reads the
file, merges `{...existing, ...updates, updatedAt}`, writes the file back.
The storage-service cache is not involved. -/
def updateMetadata (st : StorageState) (videoId : String) (updates : Json)
    (now : String) : StorageState :=
  match st.disk videoId with
  | none => st
  | some existing =>
    ⟨fun v => if v = videoId then
        some (mergeJson existing (updates ++ [("updatedAt", now)]))
      else st.disk v,
     st.cache⟩

/-! ## Job registry map (src/controllers/uploadController.js)

`processingJobs` is a `Map`, modelled as `String → Option Json`. -/

/-- `updateJobStatus(jobId, updates)`: `processingJobs.get(jobId) || {}` then
`processingJobs.set(jobId, {...current, ...updates, updatedAt})` — merging
into the empty object when no record exists. -/
def updateJobStatusMap (jobs : String → Option Json) (jobId : String)
    (updates : Json) (now : String) : String → Option Json :=
  let current := (jobs jobId).getD []
  fun j => if j = jobId then some (mergeJson current (updates ++ [("updatedAt", now)]))
    else jobs j

/-- `deleteJob`: 404 unless the record exists, else remove it and report
success.  Returns (map after, success?). -/
def deleteJobMap (jobs : String → Option Json) (jobId : String) :
    (String → Option Json) × Bool :=
  if (jobs jobId).isSome then
    (fun j => if j = jobId then none else jobs j, true)
  else (jobs, false)

/-- A concrete storage snapshot: one asset, metadata `{duration: 12,
chunkDuration: 5, totalChunks: 3}`, quality directory `720p`, every chunk file
present, chunk `i` of size `100 + i`. -/
def exampleEnv : StorageEnv :=
  ⟨fun _ => true, fun _ => ⟨12, 5, 3⟩, fun _ => ["720p"], fun _ _ _ => true,
   fun _ _ i => 100 + i.toNat⟩

/-! ## Helper lemmas -/

theorem list_set_ne_of_ne_get (l : List Char) (i : ℕ) (c : Char) (hi : i < l.length)
    (hne : c ≠ l.get ⟨i, hi⟩) : l.set i c ≠ l := by
  intro heq
  apply hne
  have h2 : (l.set i c)[i]? = some c := List.getElem?_set_eq_of_lt c hi
  rw [heq, List.getElem?_eq_getElem hi] at h2
  simp only [List.get_eq_getElem]
  exact (Option.some_inj.mp h2).symm

theorem alterByte_ne (s : String) (i : ℕ) (c : Char) (hi : i < s.data.length)
    (hne : c ≠ s.data.get ⟨i, hi⟩) : alterByte s i c ≠ s := by
  intro heq
  exact list_set_ne_of_ne_get s.data i c hi hne (congrArg String.data heq)

/-! ## C1: signed-URL round trip -/

/-- C1: verifying the exact outputs of `generateSignedUrl` returns valid while
the current time is at most `expires`; once the current time passes `expires`
it returns invalid with the expiry reason (`URL expired`); and altering any
single byte of the signature at a non-expired time returns invalid with the
signature-mismatch reason (`Invalid signature`). -/
theorem C1_signed_url_round_trip (hmac : String → String) (now0 now : ℕ)
    (videoId quality : String) (chunkIndex ttl : ℕ) (_httl : 0 < ttl)
    (u : SignedUrl) (hu : generateSignedUrl hmac now0 videoId quality chunkIndex ttl = u) :
    (now ≤ u.expires →
      verifySignedUrl hmac now videoId quality chunkIndex u.expires u.signature =
        VerifyResult.valid) ∧
    (u.expires < now →
      verifySignedUrl hmac now videoId quality chunkIndex u.expires u.signature =
        VerifyResult.invalid "URL expired") ∧
    (∀ (i : ℕ) (c : Char) (hi : i < u.signature.data.length), now ≤ u.expires →
      c ≠ u.signature.data.get ⟨i, hi⟩ →
      verifySignedUrl hmac now videoId quality chunkIndex u.expires
        (alterByte u.signature i c) = VerifyResult.invalid "Invalid signature") := by
  subst hu
  simp only [generateSignedUrl]
  refine ⟨fun h => ?_, fun h => ?_, fun i c hi h hne => ?_⟩
  · simp only [verifySignedUrl]
    rw [if_neg (by omega)]
    simp
  · simp only [verifySignedUrl]
    rw [if_pos (by omega)]
  · have hne2 := alterByte_ne _ i c hi hne
    simp only [verifySignedUrl]
    rw [if_neg (by omega), if_pos hne2]

/-- Witness for C1 at `hmac = id`, issuance time 0, ttl 3, verification time 1. -/
theorem C1_signed_url_round_trip_witness :
    0 < 3 ∧
    verifySignedUrl (fun s => s) 1 "vid" "720p" 2
      (generateSignedUrl (fun s => s) 0 "vid" "720p" 2 3).expires
      (generateSignedUrl (fun s => s) 0 "vid" "720p" 2 3).signature =
      VerifyResult.valid :=
  ⟨by decide, (C1_signed_url_round_trip (fun s => s) 0 1 "vid" "720p" 2 3 (by decide)
      _ rfl).1 (by decide)⟩

/-! ## C2: quality resolution policy -/

/-- C2: for an existing video and in-range chunk index, a requested quality
among the available tiers is used; an unavailable one is replaced by the
configured default tier; and when the default is also unavailable the call
fails with `Quality not available` carrying the requested quality and the
available list. -/
theorem C2_quality_fallback (env : StorageEnv) (defaultQuality videoId quality : String)
    (chunkIndex : ℤ) (hvid : env.videoExists videoId = true)
    (h0 : 0 ≤ chunkIndex)
    (hlt : chunkIndex < ((env.metadataOf videoId).totalChunks : ℤ)) :
    ((env.availableQualities videoId).contains quality = true →
      env.chunkExists videoId quality chunkIndex = true →
      getChunkByIndex env defaultQuality videoId quality chunkIndex =
        Except.ok ⟨videoId, quality, chunkIndex,
          env.chunkSize videoId quality chunkIndex⟩) ∧
    ((env.availableQualities videoId).contains quality = false →
      (env.availableQualities videoId).contains defaultQuality = true →
      env.chunkExists videoId defaultQuality chunkIndex = true →
      getChunkByIndex env defaultQuality videoId quality chunkIndex =
        Except.ok ⟨videoId, defaultQuality, chunkIndex,
          env.chunkSize videoId defaultQuality chunkIndex⟩) ∧
    ((env.availableQualities videoId).contains quality = false →
      (env.availableQualities videoId).contains defaultQuality = false →
      getChunkByIndex env defaultQuality videoId quality chunkIndex =
        Except.error (.qualityUnavailable quality (env.availableQualities videoId))) := by
  have hb : ¬ (chunkIndex < 0 ∨ ((env.metadataOf videoId).totalChunks : ℤ) ≤ chunkIndex) := by
    omega
  refine ⟨fun hq hce => ?_, fun hq hd hce => ?_, fun hq hd => ?_⟩
  · have hq2 : quality ∈ env.availableQualities videoId := by simpa using hq
    simp [getChunkByIndex, hvid, hb, hq2, hce]
  · have hq2 : quality ∉ env.availableQualities videoId := by simpa using hq
    have hd2 : defaultQuality ∈ env.availableQualities videoId := by simpa using hd
    simp [getChunkByIndex, hvid, hb, hq2, hd2, hce]
  · have hq2 : quality ∉ env.availableQualities videoId := by simpa using hq
    have hd2 : defaultQuality ∉ env.availableQualities videoId := by simpa using hd
    simp [getChunkByIndex, hvid, hb, hq2, hd2]

/-- Witness for C2: the requested available tier is used. -/
theorem C2_quality_fallback_witness :
    exampleEnv.videoExists "v" = true ∧
    getChunkByIndex exampleEnv "720p" "v" "720p" 1 =
      Except.ok ⟨"v", "720p", 1, 101⟩ :=
  ⟨rfl, (C2_quality_fallback exampleEnv "720p" "v" "720p" 1 rfl (by decide)
      (by decide)).1 rfl rfl⟩

/-! ## C4: timestamp addressing -/

/-- C4: `timestampToChunkIndex(t, d) = ⌊t/d⌋`, `chunkIndexToTimestamp(i, d) =
i*d` (with `(12,5) ↦ 2`, `(10,5) ↦ 2`, `(2,5) ↦ 10`), and
`getChunkByTimestamp` resolves the index from the asset's own stored
`chunkDuration`, delegating to `getChunkByIndex`. -/
theorem C4_timestamp_addressing (t : ℚ) (d i : ℕ) (_ht : 0 ≤ t) (_hd : 0 < d) :
    timestampToChunkIndex t d = ⌊t / (d : ℚ)⌋ ∧
    chunkIndexToTimestamp i d = i * d ∧
    timestampToChunkIndex 12 5 = 2 ∧
    timestampToChunkIndex 10 5 = 2 ∧
    chunkIndexToTimestamp 2 5 = 10 ∧
    ∀ (env : StorageEnv) (defaultQuality videoId quality : String),
      getChunkByTimestamp env defaultQuality videoId quality t =
        getChunkByIndex env defaultQuality videoId quality
          (timestampToChunkIndex t (env.metadataOf videoId).chunkDuration) :=
  ⟨rfl, rfl, by norm_num [timestampToChunkIndex], by norm_num [timestampToChunkIndex],
   rfl, fun _ _ _ _ => rfl⟩

/-- Witness for C4 at `t = 12`, `d = 5`, `i = 2`. -/
theorem C4_timestamp_addressing_witness :
    (0 : ℚ) ≤ 12 ∧ 0 < 5 ∧ timestampToChunkIndex 12 5 = 2 :=
  ⟨by norm_num, by decide, (C4_timestamp_addressing 12 5 2 (by norm_num) (by decide)).2.2.1⟩

/-! ## C8: temporary-file cleanup -/

/-- C8: for both ingestion paths, whatever the download, transcode and
metadata-update outcomes, the temporary input file no longer exists once the
job reaches its terminal state — including when `segmentVideo` throws. -/
theorem C8_temp_cleanup : ∀ dlOk segOk metaOk : Bool,
    processVideoAsyncFinalTemp dlOk segOk metaOk = false ∧
    processUploadAsyncFinalTemp segOk = false := by decide

/-! ## C10: job deletion races with the running task -/

/-- C10: deleting an existing job succeeds and removes the record, yet a
subsequent `updateJobStatus` by the still-running task merges into the empty
object and re-creates a record under the same jobId, so `get(jobId)` succeeds
again. -/
theorem C10_delete_then_update (jobs : String → Option Json) (jobId : String)
    (updates : Json) (now : String) (h : (jobs jobId).isSome = true) :
    (deleteJobMap jobs jobId).2 = true ∧
    (deleteJobMap jobs jobId).1 jobId = none ∧
    updateJobStatusMap (deleteJobMap jobs jobId).1 jobId updates now jobId =
      some (updates ++ [("updatedAt", now)]) ∧
    (updateJobStatusMap (deleteJobMap jobs jobId).1 jobId updates now jobId).isSome
      = true := by
  refine ⟨?_, ?_, ?_, ?_⟩ <;> simp [deleteJobMap, updateJobStatusMap, mergeJson, h]

/-- Witness for C10 at a one-job registry. -/
theorem C10_delete_then_update_witness :
    updateJobStatusMap
      (deleteJobMap (fun j => if j = "job1" then some [("status", "processing")] else none)
        "job1").1
      "job1" [("status", "failed")] "t1" "job1" =
      some [("status", "failed"), ("updatedAt", "t1")] :=
  (C10_delete_then_update
    (fun j => if j = "job1" then some [("status", "processing")] else none)
    "job1" [("status", "failed")] "t1" (by decide)).2.2.1

/-! ## C9: metadata-cache staleness -/

theorem getMetadata_cache_some (st : StorageState) (v : String) (m : Json)
    (h : (getMetadata st v).1 = some m) : ((getMetadata st v).2).cache v = some m := by
  unfold getMetadata at *
  cases hc : st.cache v with
  | some m2 =>
    simp [hc] at h ⊢
    exact h
  | none =>
    cases hd : st.disk v with
    | some md =>
      simp [hc, hd] at h ⊢
      exact h
    | none => simp [hc, hd] at h

theorem updateMetadata_cache (s : StorageState) (videoId : String) (u : Json)
    (now : String) : (updateMetadata s videoId u now).cache = s.cache := by
  unfold updateMetadata
  cases s.disk videoId <;> rfl

theorem foldl_updateMetadata_cache (videoId : String) (patches : List (Json × String)) :
    ∀ st : StorageState,
      (patches.foldl (fun s pu => updateMetadata s videoId pu.1 pu.2) st).cache = st.cache := by
  induction patches with
  | nil => intro st; rfl
  | cons p ps ih =>
    intro st
    rw [List.foldl_cons, ih, updateMetadata_cache _ videoId p.1 p.2]

theorem getMetadata_of_cache_hit (st : StorageState) (v : String) (m : Json)
    (h : st.cache v = some m) : (getMetadata st v).1 = some m := by
  unfold getMetadata
  rw [h]

/-- C9: once `getMetadata(videoId)` has succeeded, every later
`getMetadata(videoId)` — even after any number of `updateMetadata` rewrites of
the on-disk record — returns the record cached by the first read, because
`updateMetadata` writes the file directly and leaves the storage-service cache
untouched. -/
theorem C9_metadata_cache_staleness (st : StorageState) (videoId : String) (m : Json)
    (h : (getMetadata st videoId).1 = some m) (patches : List (Json × String)) :
    (getMetadata
      (patches.foldl (fun s pu => updateMetadata s videoId pu.1 pu.2)
        (getMetadata st videoId).2) videoId).1 = some m ∧
    (∀ (s : StorageState) (u : Json) (now : String),
      (updateMetadata s videoId u now).cache = s.cache) := by
  refine ⟨?_, fun s u now => updateMetadata_cache s videoId u now⟩
  apply getMetadata_of_cache_hit
  rw [foldl_updateMetadata_cache]
  exact getMetadata_cache_some st videoId m h

/-- Witness for C9: a one-video store whose disk record is rewritten by
`updateMetadata`, while the read still returns the originally cached record. -/
theorem C9_metadata_cache_staleness_witness :
    (getMetadata
      ⟨fun v => if v = "v1" then some [("title", "old")] else none, fun _ => none⟩
      "v1").1 = some [("title", "old")] ∧
    (getMetadata
      ([([("title", "new")], "t1")].foldl
        (fun s pu => updateMetadata s "v1" pu.1 pu.2)
        (getMetadata
          ⟨fun v => if v = "v1" then some [("title", "old")] else none, fun _ => none⟩
          "v1").2) "v1").1 = some [("title", "old")] :=
  ⟨rfl,
   (C9_metadata_cache_staleness
     ⟨fun v => if v = "v1" then some [("title", "old")] else none, fun _ => none⟩
     "v1" [("title", "old")] rfl [([("title", "new")], "t1")]).1⟩

/-! ## C3: byte-range parsing -/

theorem takeWhile_digits_append (d1 r : List Char) (hd : ∀ c ∈ d1, c.isDigit) :
    (d1 ++ '-' :: r).takeWhile Char.isDigit = d1 := by
  induction d1 with
  | nil =>
    simp [List.takeWhile_cons, (by decide : Char.isDigit '-' = false)]
  | cons a as ih =>
    have ha : a.isDigit := hd a (by simp)
    simp only [List.cons_append, List.takeWhile_cons, ha]
    simp [ih (fun c hc => hd c (by simp [hc]))]

theorem dropWhile_digits_append (d1 r : List Char) (hd : ∀ c ∈ d1, c.isDigit) :
    (d1 ++ '-' :: r).dropWhile Char.isDigit = '-' :: r := by
  induction d1 with
  | nil =>
    simp [List.dropWhile_cons, (by decide : Char.isDigit '-' = false)]
  | cons a as ih =>
    have ha : a.isDigit := hd a (by simp)
    simp only [List.cons_append, List.dropWhile_cons, ha]
    simp [ih (fun c hc => hd c (by simp [hc]))]

theorem matchBytesAt_exact (d1 d2 : List Char) (h1 : ∀ c ∈ d1, c.isDigit)
    (h2 : ∀ c ∈ d2, c.isDigit) :
    matchBytesAt ("bytes=".data ++ (d1 ++ '-' :: d2)) = some (d1, d2) := by
  have ht : ("bytes=".data ++ (d1 ++ '-' :: d2)).take 6 = "bytes=".data := by
    rw [show (6 : ℕ) = ("bytes=".data).length from rfl]
    exact List.take_left _ _
  have hdr : ("bytes=".data ++ (d1 ++ '-' :: d2)).drop 6 = d1 ++ '-' :: d2 := by
    rw [show (6 : ℕ) = ("bytes=".data).length from rfl]
    exact List.drop_left _ _
  unfold matchBytesAt
  rw [ht, if_pos rfl, hdr]
  simp only [takeWhile_digits_append d1 d2 h1, dropWhile_digits_append d1 d2 h1,
    List.takeWhile_eq_self_iff.mpr h2]

theorem findBytesMatch_exact (d1 d2 : List Char) (h1 : ∀ c ∈ d1, c.isDigit)
    (h2 : ∀ c ∈ d2, c.isDigit) :
    findBytesMatch ('b' :: 'y' :: 't' :: 'e' :: 's' :: '=' :: (d1 ++ '-' :: d2)) =
      some (d1, d2) := by
  have hm := matchBytesAt_exact d1 d2 h1 h2
  rw [show ("bytes=".data ++ (d1 ++ '-' :: d2)) =
      'b' :: 'y' :: 't' :: 'e' :: 's' :: '=' :: (d1 ++ '-' :: d2) from rfl] at hm
  rw [findBytesMatch, hm]

/-- C3: `parseRange` returns `none` for an absent or malformed header or
invalid bounds; otherwise `{start, end, length = end - start + 1}` with a
missing start defaulting to `0` and a missing end to `fileSize - 1`; and the
four concrete examples of the spec hold. -/
theorem C3_parse_range (fileSize : ℕ) (_hfs : 0 < fileSize) :
    parseRange none fileSize = none ∧
    parseRange (some "bytes=0-99") 1000 = some ⟨0, 99, 100⟩ ∧
    parseRange (some "bytes=100-") 1000 = some ⟨100, 999, 900⟩ ∧
    parseRange (some "bytes=1000-1001") 1000 = none ∧
    (∀ (s : String) (r : ByteRange), parseRange (some s) fileSize = some r →
      r.start ≤ r.«end» ∧ r.«end» < fileSize ∧ r.start < fileSize ∧
        r.length = r.«end» - r.start + 1) ∧
    (∀ s : String, findBytesMatch s.data = none →
      parseRange (some s) fileSize = none) ∧
    (∀ d1 d2 : List Char, (∀ c ∈ d1, c.isDigit) → (∀ c ∈ d2, c.isDigit) →
      parseRange (some ⟨'b' :: 'y' :: 't' :: 'e' :: 's' :: '=' :: (d1 ++ '-' :: d2)⟩)
          fileSize =
        (let start := if d1.isEmpty then 0 else digitsToNat d1
         let stop := if d2.isEmpty then fileSize - 1 else digitsToNat d2
         if fileSize ≤ start ∨ fileSize ≤ stop ∨ stop < start then none
         else some ⟨start, stop, stop - start + 1⟩)) := by
  refine ⟨rfl, by decide, by decide, by decide, ?_, ?_, ?_⟩
  · intro s r hr
    simp only [parseRange] at hr
    by_cases hs : s = ""
    · simp [hs] at hr
    · rw [if_neg hs] at hr
      cases hm : findBytesMatch s.data with
      | none => rw [hm] at hr; cases hr
      | some pq =>
        rw [hm] at hr
        obtain ⟨d1, d2⟩ := pq
        dsimp only at hr
        by_cases hcond :
            fileSize ≤ (if d1.isEmpty then 0 else digitsToNat d1) ∨
            fileSize ≤ (if d2.isEmpty then fileSize - 1 else digitsToNat d2) ∨
            (if d2.isEmpty then fileSize - 1 else digitsToNat d2) <
              (if d1.isEmpty then 0 else digitsToNat d1)
        · rw [if_pos hcond] at hr
          simp at hr
        · rw [if_neg hcond] at hr
          obtain rfl := (Option.some_inj.mp hr).symm
          push_neg at hcond
          obtain ⟨hn1, hn2, hn3⟩ := hcond
          exact ⟨hn3, hn2, hn1, rfl⟩
  · intro s hm
    simp only [parseRange]
    by_cases hs : s = ""
    · simp [hs]
    · rw [if_neg hs, hm]
  · intro d1 d2 h1 h2
    simp only [parseRange]
    have hne : (⟨'b' :: 'y' :: 't' :: 'e' :: 's' :: '=' :: (d1 ++ '-' :: d2)⟩ : String)
        ≠ "" := by
      intro h
      exact List.cons_ne_nil _ _ (congrArg String.data h)
    rw [if_neg hne]
    rw [findBytesMatch_exact d1 d2 h1 h2]

/-- Witness for C3 at `fileSize = 1000`. -/
theorem C3_parse_range_witness :
    0 < 1000 ∧ parseRange (some "bytes=0-99") 1000 = some ⟨0, 99, 100⟩ :=
  ⟨by decide, (C3_parse_range 1000 (by decide)).2.1⟩

/-! ## C7: best-effort prefetch listing -/

theorem getChunkRangeLoop_map_index (env : StorageEnv) (dq v q : String)
    (md : VideoMetadata) (s : ℕ) :
    ∀ fuel i : ℕ,
      (getChunkRangeLoop env dq v q md s i fuel).map (fun t => t.index) =
        ((List.range fuel).map (fun j => s + i + j)).filter
          (fun idx => decide (idx < md.totalChunks) &&
            (getChunkByIndex env dq v q (idx : ℤ)).isOk) := by
  intro fuel
  induction fuel with
  | zero => intro i; rfl
  | succ fuel ih =>
    intro i
    rw [List.range_succ_eq_map, List.map_cons, List.map_map]
    have hj : ((fun j => s + i + j) ∘ Nat.succ) = (fun j => s + (i + 1) + j) := by
      funext j
      simp only [Function.comp]
      omega
    rw [hj, List.filter_cons, getChunkRangeLoop]
    by_cases h : s + i < md.totalChunks
    · rw [if_pos h, List.map_append, ih (i + 1)]
      cases hres : getChunkByIndex env dq v q ((s + i : ℕ) : ℤ) with
      | ok ch =>
        simp only [Nat.cast_add] at hres
        simp [hres, h, Except.isOk, Except.toBool]
      | error e =>
        simp only [Nat.cast_add] at hres
        simp [hres, h, Except.isOk, Except.toBool]
    · rw [if_neg h]
      symm
      simp only [List.map_nil]
      have hcond : ¬ ((decide (s + i + 0 < md.totalChunks) &&
          (getChunkByIndex env dq v q ((s + i + 0 : ℕ) : ℤ)).isOk) = true) := by
        intro hc
        rw [Bool.and_eq_true] at hc
        exact h (by simpa using hc.1)
      rw [if_neg hcond, List.filter_eq_nil_iff]
      intro a ha
      simp only [List.mem_map] at ha
      obtain ⟨j, _, rfl⟩ := ha
      simp [Nat.not_lt.mpr (show md.totalChunks ≤ s + (i + 1) + j by omega)]

theorem getChunkRangeLoop_mem (env : StorageEnv) (dq v q : String)
    (md : VideoMetadata) (s : ℕ) :
    ∀ (fuel i : ℕ) (t : ChunkSummary), t ∈ getChunkRangeLoop env dq v q md s i fuel →
      ∃ ch, getChunkByIndex env dq v q (t.index : ℤ) = Except.ok ch ∧
        t.size = ch.size ∧ t.timestamp = t.index * md.chunkDuration := by
  intro fuel
  induction fuel with
  | zero => intro i t ht; cases ht
  | succ fuel ih =>
    intro i t ht
    rw [getChunkRangeLoop] at ht
    by_cases h : s + i < md.totalChunks
    · rw [if_pos h] at ht
      rcases List.mem_append.mp ht with h1 | h2
      · cases hres : getChunkByIndex env dq v q ((s : ℤ) + (i : ℤ)) with
        | ok ch =>
          rw [hres] at h1
          simp only [List.mem_singleton] at h1
          subst h1
          exact ⟨ch, by simpa using hres, rfl, rfl⟩
        | error e =>
          rw [hres] at h1
          cases h1
      · exact ih (i + 1) t h2
    · rw [if_neg h] at ht
      cases ht

/-- C7: `getChunkRange` never propagates an individual chunk failure: its
result lists exactly the indices of the requested window that are below
`totalChunks` and resolve successfully, each summary carrying that chunk's
size and start timestamp; for an asset with 3 resolvable chunks,
`getChunkRange(videoId, quality, 0, 5)` returns exactly those 3 summaries. -/
theorem C7_chunk_range_prefetch (env : StorageEnv) (dq v q : String) (s c : ℕ) :
    ((getChunkRange env dq v q s c).map (fun t => t.index) =
      ((List.range c).map (fun j => s + j)).filter
        (fun idx => decide (idx < (env.metadataOf v).totalChunks) &&
          (getChunkByIndex env dq v q (idx : ℤ)).isOk)) ∧
    (∀ t ∈ getChunkRange env dq v q s c,
      ∃ ch, getChunkByIndex env dq v q (t.index : ℤ) = Except.ok ch ∧
        t.size = ch.size ∧
        t.timestamp = t.index * (env.metadataOf v).chunkDuration) ∧
    getChunkRange exampleEnv "720p" "video" "720p" 0 5 =
      [⟨0, 100, 0⟩, ⟨1, 101, 5⟩, ⟨2, 102, 10⟩] := by
  refine ⟨?_, ?_, by decide⟩
  · have h := getChunkRangeLoop_map_index env dq v q (env.metadataOf v) s c 0
    simpa [getChunkRange] using h
  · intro t ht
    exact getChunkRangeLoop_mem env dq v q (env.metadataOf v) s c 0 t ht

/-! ## C5: transcode metadata -/

/-- C5: the metadata record written at the end of a successful transcode has
`totalChunks = ⌈duration / chunkDuration⌉`, and `qualities` equal to the
requested tiers filtered — in request order — to those whose target vertical
resolution does not exceed the source height, except that an emptied filter
force-includes `360p`, the lowest defined tier; including the spec's
end-to-end example (12 s source, chunkDuration 5, tiers `[720p, 360p]`). -/
theorem C5_transcode_metadata (duration : ℚ) (height : ℕ) (Q : List String)
    (chunkDuration : ℕ)
    (_hdef : ∀ q ∈ Q, (QUALITIES.lookup q).isSome = true) (hh : 0 < height) :
    (segmentVideoMetadata duration height Q chunkDuration).totalChunks =
      ⌈duration / (chunkDuration : ℚ)⌉ ∧
    (Q.filter (fun q => targetHeight (resolutionOf q) ≤ height) ≠ [] →
      (segmentVideoMetadata duration height Q chunkDuration).qualities =
        Q.filter (fun q => targetHeight (resolutionOf q) ≤ height)) ∧
    (Q.filter (fun q => targetHeight (resolutionOf q) ≤ height) = [] →
      (segmentVideoMetadata duration height Q chunkDuration).qualities = ["360p"]) ∧
    (∀ p ∈ QUALITIES, targetHeight (resolutionOf "360p") ≤ targetHeight p.2.resolution) ∧
    segmentVideoMetadata 12 720 ["720p", "360p"] 5 =
      ⟨12, 5, 3, ["720p", "360p"]⟩ := by
  have hs : (if height = 0 then 720 else height) = height := by
    rw [if_neg (by omega)]
  refine ⟨rfl, ?_, ?_, by decide, ?_⟩
  · intro hne
    simp [segmentVideoMetadata, qualitiesToGenerate, hs, hne]
  · intro he
    simp [segmentVideoMetadata, qualitiesToGenerate, hs, he]
  · have hc : (⌈(12 : ℚ) / (5 : ℚ)⌉ : ℤ) = 3 := by
      rw [Int.ceil_eq_iff]; norm_num
    have hq : qualitiesToGenerate ["720p", "360p"] 720 = ["720p", "360p"] := by decide
    simp [segmentVideoMetadata, hq, hc]

/-- Witness for C5 at the end-to-end example input. -/
theorem C5_transcode_metadata_witness :
    (∀ q ∈ ["720p", "360p"], ((QUALITIES.lookup q).isSome = true)) ∧ 0 < 720 ∧
    (segmentVideoMetadata 12 720 ["720p", "360p"] 5).qualities =
      ["720p", "360p"].filter (fun q => targetHeight (resolutionOf q) ≤ 720) :=
  ⟨by decide, by decide,
   (C5_transcode_metadata 12 720 ["720p", "360p"] 5 (by decide) (by decide)).2.1
     (by decide)⟩

/-! ## C6: job lifecycle -/

theorem jobStatesFrom_head (vs : List JobUpdate) (j : JobRecord) :
    jobStatesFrom j vs = j :: (jobStatesFrom j vs).tail := by
  cases vs <;> rfl

theorem jobStatesFrom_append (us vs : List JobUpdate) :
    ∀ j, jobStatesFrom j (us ++ vs) =
      jobStatesFrom j us ++ (jobStatesFrom (us.foldl applyUpdate j) vs).tail := by
  induction us with
  | nil =>
    intro j
    simp only [List.nil_append, List.foldl_nil, jobStatesFrom]
    exact jobStatesFrom_head vs j
  | cons u us ih =>
    intro j
    simp only [List.cons_append, jobStatesFrom, List.foldl_cons, List.append_eq]
    rw [ih (applyUpdate j u)]

theorem jobStatesFrom_map_const (mk : ℕ → JobUpdate) (st : JobStatus)
    (hmk : ∀ p, mk p = ⟨some st, some p⟩) (evs : List ℕ) :
    ∀ j, jobStatesFrom j (evs.map mk) = j :: evs.map (fun p => ⟨st, p⟩) := by
  induction evs with
  | nil => intro j; rfl
  | cons e es ih =>
    intro j
    simp only [List.map_cons, jobStatesFrom, hmk]
    rw [show applyUpdate j ⟨some st, some e⟩ = ⟨st, e⟩ from rfl, ih ⟨st, e⟩]

theorem foldl_apply_map_const (mk : ℕ → JobUpdate) (st : JobStatus)
    (hmk : ∀ p, mk p = ⟨some st, some p⟩) (evs : List ℕ) :
    ∀ j, (evs.map mk).foldl applyUpdate j =
      ⟨if evs = [] then j.status else st, evs.getLast?.getD j.progress⟩ := by
  induction evs with
  | nil => intro j; rfl
  | cons e es ih =>
    intro j
    simp only [List.map_cons, List.foldl_cons, hmk]
    rw [show applyUpdate j ⟨some st, some e⟩ = ⟨st, e⟩ from rfl, ih ⟨st, e⟩]
    congr 1
    · by_cases hes : es = [] <;> simp [hes]
    · cases es with
      | nil => rfl
      | cons f fs =>
        rw [List.getLast?_cons_cons]
        cases h : (f :: fs).getLast? with
        | none => simp at h
        | some x => rfl

/-- Closed form of a remote-URL ingestion's job-state trace. -/
theorem processVideoAsyncStates_eq (download encode : StageResult) (metaOk : Bool) :
    processVideoAsyncStates download encode metaOk =
      ⟨.initializing, 0⟩ :: ⟨.downloading, 0⟩ :: ⟨.downloading, 0⟩ ::
      (match download with
       | .fail evs => evs.map (fun p => ⟨.downloading, p⟩) ++
           [⟨.failed, evs.getLast?.getD 0⟩]
       | .ok evs => evs.map (fun p => ⟨.downloading, p⟩) ++
           ⟨.processing, 0⟩ ::
           (match encode with
            | .fail evs2 => evs2.map (fun p => ⟨.processing, p⟩) ++
                [⟨.failed, evs2.getLast?.getD 0⟩]
            | .ok evs2 => evs2.map (fun p => ⟨.processing, p⟩) ++
                (if metaOk then [⟨.completed, 100⟩]
                 else [⟨.failed, evs2.getLast?.getD 0⟩]))) := by
  unfold processVideoAsyncStates processVideoAsyncUpdates
  cases download with
  | fail evs =>
    simp only [jobStatesFrom, applyUpdate, Option.getD_some, Option.getD_none]
    rw [jobStatesFrom_append, jobStatesFrom_map_const downloadingUpdate .downloading
      (fun _ => rfl) evs, foldl_apply_map_const downloadingUpdate .downloading
      (fun _ => rfl) evs]
    simp [jobStatesFrom, applyUpdate, failedUpdate]
  | ok evs =>
    simp only [jobStatesFrom, applyUpdate, Option.getD_some, Option.getD_none]
    rw [jobStatesFrom_append, jobStatesFrom_map_const downloadingUpdate .downloading
      (fun _ => rfl) evs]
    simp only [jobStatesFrom, applyUpdate, Option.getD_some, Option.getD_none,
      List.tail_cons, List.cons_append]
    cases encode with
    | fail evs2 =>
      rw [jobStatesFrom_append, jobStatesFrom_map_const processingUpdate .processing
        (fun _ => rfl) evs2, foldl_apply_map_const processingUpdate .processing
        (fun _ => rfl) evs2]
      simp [jobStatesFrom, applyUpdate, failedUpdate]
    | ok evs2 =>
      cases metaOk with
      | true =>
        rw [if_pos rfl, jobStatesFrom_append, jobStatesFrom_map_const processingUpdate
          .processing (fun _ => rfl) evs2]
        simp [jobStatesFrom, applyUpdate]
      | false =>
        rw [if_neg (by simp), jobStatesFrom_append, jobStatesFrom_map_const
          processingUpdate .processing (fun _ => rfl) evs2, foldl_apply_map_const
          processingUpdate .processing (fun _ => rfl) evs2]
        simp [jobStatesFrom, applyUpdate, failedUpdate]

/-- Closed form of a direct-upload ingestion's job-state trace. -/
theorem processUploadAsyncStates_eq (encode : StageResult) :
    processUploadAsyncStates encode =
      ⟨.processing, 0⟩ ::
      (match encode with
       | .fail evs => evs.map (fun p => ⟨.processing, p⟩) ++
           [⟨.failed, evs.getLast?.getD 0⟩]
       | .ok evs => evs.map (fun p => ⟨.processing, p⟩) ++ [⟨.completed, 100⟩]) := by
  unfold processUploadAsyncStates processUploadAsyncUpdates
  cases encode with
  | fail evs =>
    rw [jobStatesFrom_append, jobStatesFrom_map_const processingUpdate .processing
      (fun _ => rfl) evs, foldl_apply_map_const processingUpdate .processing
      (fun _ => rfl) evs]
    simp [jobStatesFrom, applyUpdate, failedUpdate]
  | ok evs =>
    rw [jobStatesFrom_append, jobStatesFrom_map_const processingUpdate .processing
      (fun _ => rfl) evs]
    simp [jobStatesFrom, applyUpdate]

theorem getLastD_zero_or_mem (evs : List ℕ) :
    evs.getLast?.getD 0 = 0 ∨ evs.getLast?.getD 0 ∈ evs := by
  cases he : evs.getLast? with
  | none => exact Or.inl rfl
  | some x =>
    obtain ⟨hne, hx⟩ := List.mem_getLast?_eq_getLast (Option.mem_def.mpr he)
    right
    rw [Option.getD_some, hx]
    exact List.getLast_mem hne

theorem getLastD_le_of_all (evs : List ℕ) (h : ∀ p ∈ evs, p ≤ 100) :
    evs.getLast?.getD 0 ≤ 100 := by
  rcases getLastD_zero_or_mem evs with he | he
  · omega
  · exact h _ he

/-- A single status phase: starting record `⟨st, p⟩`, the phase's progress
events, then a continuation starting in a different status. -/
theorem chainPD_run (st : JobStatus) (rest : List JobRecord)
    (hrest : List.Chain'
      (fun a b : JobRecord => a.status ≠ b.status ∨ a.progress ≤ b.progress) rest)
    (hlink : ∀ y ∈ rest.head?, y.status ≠ st) :
    ∀ (evs : List ℕ) (p : ℕ), (∀ q ∈ evs.head?, p ≤ q) → List.Chain' (· ≤ ·) evs →
      List.Chain' (fun a b : JobRecord => a.status ≠ b.status ∨ a.progress ≤ b.progress)
        (⟨st, p⟩ :: evs.map (fun q => ⟨st, q⟩) ++ rest) := by
  intro evs
  induction evs with
  | nil =>
    intro p _ _
    simp only [List.map_nil, List.singleton_append]
    rw [List.chain'_cons']
    exact ⟨fun y hy => Or.inl (Ne.symm (hlink y hy)), hrest⟩
  | cons e es ih =>
    intro p hp hch
    simp only [List.map_cons, List.cons_append]
    rw [List.chain'_cons]
    refine ⟨Or.inr (hp e rfl), ?_⟩
    exact ih e (List.chain'_cons'.mp hch).1 (List.chain'_cons'.mp hch).2

/-- C6 counterexample: in the remote-URL pipeline, the transition from the
`downloading` phase (progress 100) to the `processing` phase resets `progress`
to 0, so progress is not monotonically non-decreasing across the whole
non-terminal run; the trace below uses valid monotone per-phase events. -/
theorem C6_progress_counterexample :
    ¬ (∀ (k : ℕ) (a b : JobRecord),
        (processVideoAsyncStates (.ok [100]) (.ok [50]) true)[k]? = some a →
        (processVideoAsyncStates (.ok [100]) (.ok [50]) true)[k + 1]? = some b →
        a.isTerminal = false → a.progress ≤ b.progress) := by
  intro h
  have h34 := h 3 ⟨.downloading, 100⟩ ⟨.processing, 0⟩ (by decide) (by decide) (by decide)
  exact absurd h34 (by decide)

theorem processVideoAsyncStates_chainPD (download encode : StageResult) (metaOk : Bool)
    (hdl : List.Chain' (fun a b : ℕ => a ≤ b) download.events)
    (henc : List.Chain' (fun a b : ℕ => a ≤ b) encode.events) :
    List.Chain' (fun a b : JobRecord => a.status ≠ b.status ∨ a.progress ≤ b.progress)
      (processVideoAsyncStates download encode metaOk) := by
  rw [processVideoAsyncStates_eq]
  cases download with
  | fail evs =>
    have h1 := chainPD_run .downloading [⟨.failed, evs.getLast?.getD 0⟩]
      (List.chain'_singleton _)
      (by intro y hy; simp at hy; subst hy; simp) evs 0
      (fun q _ => Nat.zero_le q) hdl
    exact List.chain'_cons.mpr ⟨Or.inl (by decide),
      List.chain'_cons.mpr ⟨Or.inr le_rfl, h1⟩⟩
  | ok evs =>
    cases encode with
    | fail evs2 =>
      have h2 := chainPD_run .processing [⟨.failed, evs2.getLast?.getD 0⟩]
        (List.chain'_singleton _)
        (by intro y hy; simp at hy; subst hy; simp) evs2 0
        (fun q _ => Nat.zero_le q) henc
      have h1 := chainPD_run .downloading
        (⟨.processing, 0⟩ :: evs2.map (fun q => (⟨.processing, q⟩ : JobRecord)) ++
          [⟨.failed, evs2.getLast?.getD 0⟩]) h2
        (by intro y hy; simp at hy; subst hy; simp) evs 0
        (fun q _ => Nat.zero_le q) hdl
      exact List.chain'_cons.mpr ⟨Or.inl (by decide),
        List.chain'_cons.mpr ⟨Or.inr le_rfl, h1⟩⟩
    | ok evs2 =>
      cases metaOk with
      | true =>
        have h2 := chainPD_run .processing [⟨.completed, 100⟩]
          (List.chain'_singleton _)
          (by intro y hy; simp at hy; subst hy; simp) evs2 0
          (fun q _ => Nat.zero_le q) henc
        have h1 := chainPD_run .downloading
          (⟨.processing, 0⟩ :: evs2.map (fun q => (⟨.processing, q⟩ : JobRecord)) ++
            [⟨.completed, 100⟩]) h2
          (by intro y hy; simp at hy; subst hy; simp) evs 0
          (fun q _ => Nat.zero_le q) hdl
        exact List.chain'_cons.mpr ⟨Or.inl (by decide),
          List.chain'_cons.mpr ⟨Or.inr le_rfl, h1⟩⟩
      | false =>
        have h2 := chainPD_run .processing [⟨.failed, evs2.getLast?.getD 0⟩]
          (List.chain'_singleton _)
          (by intro y hy; simp at hy; subst hy; simp) evs2 0
          (fun q _ => Nat.zero_le q) henc
        have h1 := chainPD_run .downloading
          (⟨.processing, 0⟩ :: evs2.map (fun q => (⟨.processing, q⟩ : JobRecord)) ++
            [⟨.failed, evs2.getLast?.getD 0⟩]) h2
          (by intro y hy; simp at hy; subst hy; simp) evs 0
          (fun q _ => Nat.zero_le q) hdl
        exact List.chain'_cons.mpr ⟨Or.inl (by decide),
          List.chain'_cons.mpr ⟨Or.inr le_rfl, h1⟩⟩

theorem processUploadAsyncStates_chainPD (encode : StageResult)
    (henc : List.Chain' (fun a b : ℕ => a ≤ b) encode.events) :
    List.Chain' (fun a b : JobRecord => a.status ≠ b.status ∨ a.progress ≤ b.progress)
      (processUploadAsyncStates encode) := by
  rw [processUploadAsyncStates_eq]
  cases encode with
  | fail evs =>
    exact chainPD_run .processing [⟨.failed, evs.getLast?.getD 0⟩]
      (List.chain'_singleton _)
      (by intro y hy; simp at hy; subst hy; simp) evs 0
      (fun q _ => Nat.zero_le q) henc
  | ok evs =>
    exact chainPD_run .processing [⟨.completed, 100⟩]
      (List.chain'_singleton _)
      (by intro y hy; simp at hy; subst hy; simp) evs 0
      (fun q _ => Nat.zero_le q) henc

theorem processVideoAsyncStates_dropLast_nonterminal (download encode : StageResult)
    (metaOk : Bool) :
    ∀ x ∈ (processVideoAsyncStates download encode metaOk).dropLast,
      x.isTerminal = false := by
  rw [processVideoAsyncStates_eq]
  cases download with
  | fail evs =>
    intro x hx
    rw [show (⟨.initializing, 0⟩ :: ⟨.downloading, 0⟩ :: ⟨.downloading, 0⟩ ::
        (evs.map (fun p => (⟨.downloading, p⟩ : JobRecord)) ++
          [⟨.failed, evs.getLast?.getD 0⟩]) : List JobRecord) =
        (⟨.initializing, 0⟩ :: ⟨.downloading, 0⟩ :: ⟨.downloading, 0⟩ ::
          evs.map (fun p => (⟨.downloading, p⟩ : JobRecord))) ++
          [⟨.failed, evs.getLast?.getD 0⟩] by simp] at hx
    rw [List.dropLast_concat] at hx
    simp only [List.mem_cons, List.mem_map] at hx
    rcases hx with rfl | rfl | rfl | ⟨p, _, rfl⟩ <;> rfl
  | ok evs =>
    cases encode with
    | fail evs2 =>
      intro x hx
      dsimp only at hx
      rw [show (⟨.initializing, 0⟩ :: ⟨.downloading, 0⟩ :: ⟨.downloading, 0⟩ ::
          (evs.map (fun p => (⟨.downloading, p⟩ : JobRecord)) ++
            ⟨.processing, 0⟩ ::
            (evs2.map (fun p => (⟨.processing, p⟩ : JobRecord)) ++
              [⟨.failed, evs2.getLast?.getD 0⟩])) : List JobRecord) =
          (⟨.initializing, 0⟩ :: ⟨.downloading, 0⟩ :: ⟨.downloading, 0⟩ ::
            (evs.map (fun p => (⟨.downloading, p⟩ : JobRecord)) ++
              ⟨.processing, 0⟩ ::
              evs2.map (fun p => (⟨.processing, p⟩ : JobRecord)))) ++
            [⟨.failed, evs2.getLast?.getD 0⟩] by simp] at hx
      rw [List.dropLast_concat] at hx
      simp only [List.mem_cons, List.mem_append, List.mem_map] at hx
      rcases hx with rfl | rfl | rfl | ⟨p, _, rfl⟩ | rfl | ⟨p, _, rfl⟩ <;> rfl
    | ok evs2 =>
      cases metaOk with
      | true =>
        intro x hx
        simp only [eq_self_iff_true, if_true] at hx
        rw [show (⟨.initializing, 0⟩ :: ⟨.downloading, 0⟩ :: ⟨.downloading, 0⟩ ::
            (evs.map (fun p => (⟨.downloading, p⟩ : JobRecord)) ++
              ⟨.processing, 0⟩ ::
              (evs2.map (fun p => (⟨.processing, p⟩ : JobRecord)) ++
                [⟨.completed, 100⟩])) : List JobRecord) =
            (⟨.initializing, 0⟩ :: ⟨.downloading, 0⟩ :: ⟨.downloading, 0⟩ ::
              (evs.map (fun p => (⟨.downloading, p⟩ : JobRecord)) ++
                ⟨.processing, 0⟩ ::
                evs2.map (fun p => (⟨.processing, p⟩ : JobRecord)))) ++
              [⟨.completed, 100⟩] by simp] at hx
        rw [List.dropLast_concat] at hx
        simp only [List.mem_cons, List.mem_append, List.mem_map] at hx
        rcases hx with rfl | rfl | rfl | ⟨p, _, rfl⟩ | rfl | ⟨p, _, rfl⟩ <;> rfl
      | false =>
        intro x hx
        simp only [Bool.false_eq_true, if_false] at hx
        rw [show (⟨.initializing, 0⟩ :: ⟨.downloading, 0⟩ :: ⟨.downloading, 0⟩ ::
            (evs.map (fun p => (⟨.downloading, p⟩ : JobRecord)) ++
              ⟨.processing, 0⟩ ::
              (evs2.map (fun p => (⟨.processing, p⟩ : JobRecord)) ++
                [⟨.failed, evs2.getLast?.getD 0⟩])) : List JobRecord) =
            (⟨.initializing, 0⟩ :: ⟨.downloading, 0⟩ :: ⟨.downloading, 0⟩ ::
              (evs.map (fun p => (⟨.downloading, p⟩ : JobRecord)) ++
                ⟨.processing, 0⟩ ::
                evs2.map (fun p => (⟨.processing, p⟩ : JobRecord)))) ++
              [⟨.failed, evs2.getLast?.getD 0⟩] by simp] at hx
        rw [List.dropLast_concat] at hx
        simp only [List.mem_cons, List.mem_append, List.mem_map] at hx
        rcases hx with rfl | rfl | rfl | ⟨p, _, rfl⟩ | rfl | ⟨p, _, rfl⟩ <;> rfl

theorem processUploadAsyncStates_dropLast_nonterminal (encode : StageResult) :
    ∀ x ∈ (processUploadAsyncStates encode).dropLast, x.isTerminal = false := by
  rw [processUploadAsyncStates_eq]
  cases encode with
  | fail evs =>
    intro x hx
    rw [show (⟨.processing, 0⟩ ::
        (evs.map (fun p => (⟨.processing, p⟩ : JobRecord)) ++
          [⟨.failed, evs.getLast?.getD 0⟩]) : List JobRecord) =
        (⟨.processing, 0⟩ :: evs.map (fun p => (⟨.processing, p⟩ : JobRecord))) ++
          [⟨.failed, evs.getLast?.getD 0⟩] by simp] at hx
    rw [List.dropLast_concat] at hx
    simp only [List.mem_cons, List.mem_map] at hx
    rcases hx with rfl | ⟨p, _, rfl⟩ <;> rfl
  | ok evs =>
    intro x hx
    rw [show (⟨.processing, 0⟩ ::
        (evs.map (fun p => (⟨.processing, p⟩ : JobRecord)) ++
          [⟨.completed, 100⟩]) : List JobRecord) =
        (⟨.processing, 0⟩ :: evs.map (fun p => (⟨.processing, p⟩ : JobRecord))) ++
          [⟨.completed, 100⟩] by simp] at hx
    rw [List.dropLast_concat] at hx
    simp only [List.mem_cons, List.mem_map] at hx
    rcases hx with rfl | ⟨p, _, rfl⟩ <;> rfl

theorem processVideoAsyncStates_mem (download encode : StageResult) (metaOk : Bool) :
    ∀ x ∈ processVideoAsyncStates download encode metaOk,
      x = ⟨.initializing, 0⟩ ∨ x = ⟨.downloading, 0⟩ ∨ x = ⟨.processing, 0⟩ ∨
      (∃ p ∈ download.events, x = ⟨.downloading, p⟩) ∨
      (∃ p ∈ encode.events, x = ⟨.processing, p⟩) ∨
      x = ⟨.completed, 100⟩ ∨
      (x.status = .failed ∧
        (x.progress = 0 ∨ x.progress ∈ download.events ∨
          x.progress ∈ encode.events)) := by
  rw [processVideoAsyncStates_eq]
  cases download with
  | fail evs =>
    intro x hx
    simp only [List.mem_cons, List.mem_append, List.mem_map,
      List.mem_singleton, List.not_mem_nil, or_false] at hx
    rcases hx with rfl | rfl | rfl | ⟨p, hp, rfl⟩ | rfl
    · exact Or.inl rfl
    · exact Or.inr (Or.inl rfl)
    · exact Or.inr (Or.inl rfl)
    · exact Or.inr (Or.inr (Or.inr (Or.inl ⟨p, hp, rfl⟩)))
    · refine Or.inr (Or.inr (Or.inr (Or.inr (Or.inr (Or.inr ⟨rfl, ?_⟩)))))
      rcases getLastD_zero_or_mem evs with h0 | hm
      · exact Or.inl h0
      · exact Or.inr (Or.inl hm)
  | ok evs =>
    cases encode with
    | fail evs2 =>
      intro x hx
      simp only [List.mem_cons, List.mem_append, List.mem_map,
        List.mem_singleton, List.not_mem_nil, or_false] at hx
      rcases hx with rfl | rfl | rfl | ⟨p, hp, rfl⟩ | rfl | ⟨p, hp, rfl⟩ | rfl
      · exact Or.inl rfl
      · exact Or.inr (Or.inl rfl)
      · exact Or.inr (Or.inl rfl)
      · exact Or.inr (Or.inr (Or.inr (Or.inl ⟨p, hp, rfl⟩)))
      · exact Or.inr (Or.inr (Or.inl rfl))
      · exact Or.inr (Or.inr (Or.inr (Or.inr (Or.inl ⟨p, hp, rfl⟩))))
      · refine Or.inr (Or.inr (Or.inr (Or.inr (Or.inr (Or.inr ⟨rfl, ?_⟩)))))
        rcases getLastD_zero_or_mem evs2 with h0 | hm
        · exact Or.inl h0
        · exact Or.inr (Or.inr hm)
    | ok evs2 =>
      cases metaOk with
      | true =>
        intro x hx
        simp only [eq_self_iff_true, if_true] at hx
        simp only [List.mem_cons, List.mem_append, List.mem_map,
          List.mem_singleton, List.not_mem_nil, or_false] at hx
        rcases hx with rfl | rfl | rfl | ⟨p, hp, rfl⟩ | rfl | ⟨p, hp, rfl⟩ | rfl
        · exact Or.inl rfl
        · exact Or.inr (Or.inl rfl)
        · exact Or.inr (Or.inl rfl)
        · exact Or.inr (Or.inr (Or.inr (Or.inl ⟨p, hp, rfl⟩)))
        · exact Or.inr (Or.inr (Or.inl rfl))
        · exact Or.inr (Or.inr (Or.inr (Or.inr (Or.inl ⟨p, hp, rfl⟩))))
        · exact Or.inr (Or.inr (Or.inr (Or.inr (Or.inr (Or.inl rfl)))))
      | false =>
        intro x hx
        simp only [Bool.false_eq_true, if_false] at hx
        simp only [List.mem_cons, List.mem_append, List.mem_map,
          List.mem_singleton, List.not_mem_nil, or_false] at hx
        rcases hx with rfl | rfl | rfl | ⟨p, hp, rfl⟩ | rfl | ⟨p, hp, rfl⟩ | rfl
        · exact Or.inl rfl
        · exact Or.inr (Or.inl rfl)
        · exact Or.inr (Or.inl rfl)
        · exact Or.inr (Or.inr (Or.inr (Or.inl ⟨p, hp, rfl⟩)))
        · exact Or.inr (Or.inr (Or.inl rfl))
        · exact Or.inr (Or.inr (Or.inr (Or.inr (Or.inl ⟨p, hp, rfl⟩))))
        · refine Or.inr (Or.inr (Or.inr (Or.inr (Or.inr (Or.inr ⟨rfl, ?_⟩)))))
          rcases getLastD_zero_or_mem evs2 with h0 | hm
          · exact Or.inl h0
          · exact Or.inr (Or.inr hm)

theorem processUploadAsyncStates_mem (encode : StageResult) :
    ∀ x ∈ processUploadAsyncStates encode,
      x = ⟨.processing, 0⟩ ∨
      (∃ p ∈ encode.events, x = ⟨.processing, p⟩) ∨
      x = ⟨.completed, 100⟩ ∨
      (x.status = .failed ∧ (x.progress = 0 ∨ x.progress ∈ encode.events)) := by
  rw [processUploadAsyncStates_eq]
  cases encode with
  | fail evs =>
    intro x hx
    simp only [List.mem_cons, List.mem_append, List.mem_map,
      List.mem_singleton, List.not_mem_nil, or_false] at hx
    rcases hx with rfl | ⟨p, hp, rfl⟩ | rfl
    · exact Or.inl rfl
    · exact Or.inr (Or.inl ⟨p, hp, rfl⟩)
    · exact Or.inr (Or.inr (Or.inr ⟨rfl, getLastD_zero_or_mem evs⟩))
  | ok evs =>
    intro x hx
    simp only [List.mem_cons, List.mem_append, List.mem_map,
      List.mem_singleton, List.not_mem_nil, or_false] at hx
    rcases hx with rfl | ⟨p, hp, rfl⟩ | rfl
    · exact Or.inl rfl
    · exact Or.inr (Or.inl ⟨p, hp, rfl⟩)
    · exact Or.inr (Or.inr (Or.inl rfl))

/-- C6 (amended): for every ingestion job, terminal states (`completed` or
`failed`) occur only as the final state of the run, so no later update changes
a terminal status; `progress` stays within 0–100 and is monotonically
non-decreasing within each status phase — but it is reset to 0 at the
`downloading → processing` transition of remote-URL jobs, so monotonicity
holds across phase boundaries only where the status changes; and `progress`
equals exactly 100 whenever status is `completed`. -/
theorem C6_job_lifecycle_amended (download encode : StageResult) (metaOk : Bool)
    (hdl : List.Chain' (fun a b : ℕ => a ≤ b) download.events)
    (henc : List.Chain' (fun a b : ℕ => a ≤ b) encode.events)
    (hdl100 : ∀ p ∈ download.events, p ≤ 100)
    (henc100 : ∀ p ∈ encode.events, p ≤ 100) :
    (∀ x ∈ (processVideoAsyncStates download encode metaOk).dropLast,
      x.isTerminal = false) ∧
    List.Chain' (fun a b : JobRecord => a.status ≠ b.status ∨ a.progress ≤ b.progress)
      (processVideoAsyncStates download encode metaOk) ∧
    (∀ x ∈ processVideoAsyncStates download encode metaOk,
      x.status = JobStatus.completed → x.progress = 100) ∧
    (∀ x ∈ processVideoAsyncStates download encode metaOk, x.progress ≤ 100) ∧
    (∀ x ∈ (processUploadAsyncStates encode).dropLast, x.isTerminal = false) ∧
    List.Chain' (fun a b : JobRecord => a.status ≠ b.status ∨ a.progress ≤ b.progress)
      (processUploadAsyncStates encode) ∧
    (∀ x ∈ processUploadAsyncStates encode,
      x.status = JobStatus.completed → x.progress = 100) ∧
    (∀ x ∈ processUploadAsyncStates encode, x.progress ≤ 100) := by
  refine ⟨processVideoAsyncStates_dropLast_nonterminal download encode metaOk,
    processVideoAsyncStates_chainPD download encode metaOk hdl henc, ?_, ?_,
    processUploadAsyncStates_dropLast_nonterminal encode,
    processUploadAsyncStates_chainPD encode henc, ?_, ?_⟩
  · intro x hx hc
    rcases processVideoAsyncStates_mem download encode metaOk x hx with
      rfl | rfl | rfl | ⟨p, _, rfl⟩ | ⟨p, _, rfl⟩ | rfl | ⟨hst, _⟩
    · cases hc
    · cases hc
    · cases hc
    · cases hc
    · cases hc
    · rfl
    · rw [hst] at hc; cases hc
  · intro x hx
    rcases processVideoAsyncStates_mem download encode metaOk x hx with
      rfl | rfl | rfl | ⟨p, hp, rfl⟩ | ⟨p, hp, rfl⟩ | rfl | ⟨_, hpr⟩
    · decide
    · decide
    · decide
    · exact hdl100 p hp
    · exact henc100 p hp
    · decide
    · rcases hpr with h0 | hm | hm
      · omega
      · exact hdl100 _ hm
      · exact henc100 _ hm
  · intro x hx hc
    rcases processUploadAsyncStates_mem encode x hx with
      rfl | ⟨p, _, rfl⟩ | rfl | ⟨hst, _⟩
    · cases hc
    · cases hc
    · rfl
    · rw [hst] at hc; cases hc
  · intro x hx
    rcases processUploadAsyncStates_mem encode x hx with
      rfl | ⟨p, hp, rfl⟩ | rfl | ⟨_, hpr⟩
    · decide
    · exact henc100 p hp
    · decide
    · rcases hpr with h0 | hm
      · omega
      · exact henc100 _ hm

/-- Witness for C6 (amended) at download events `[100]`, encode events `[50]`. -/
theorem C6_job_lifecycle_amended_witness :
    List.Chain' (fun a b : ℕ => a ≤ b) [100] ∧
    List.Chain' (fun a b : JobRecord => a.status ≠ b.status ∨ a.progress ≤ b.progress)
      (processVideoAsyncStates (.ok [100]) (.ok [50]) true) :=
  ⟨List.chain'_singleton _,
   (C6_job_lifecycle_amended (.ok [100]) (.ok [50]) true (List.chain'_singleton _)
     (List.chain'_singleton _) (by decide) (by decide)).2.1⟩

end VideoStreaming
